import Mathlib

/-!
Verification development for the gitbook-to-wkhtmltopdf bundle compiler
(`gen_pdf_wk.js`).  JavaScript strings are modelled as `List Char`; the
Node `path` helpers that the script relies on (`basename`, `extname`,
`join`) are translated for POSIX-style separator semantics, which is the
form in which the script uses them.
-/

/-- JavaScript strings are modelled as lists of characters. -/
abbrev Str := List Char

/-! ## Decimal rendering of the collision-suffix counter

`assetDestBase + '_' + i` in the script converts the counter `i` to its
decimal string.  `decStr` implements that conversion (fuel-structural so
that it evaluates by kernel reduction). -/

/-- One decimal digit as a character (only used for `n < 10`). -/
def digitChar : Nat → Char
  | 0 => '0' | 1 => '1' | 2 => '2' | 3 => '3' | 4 => '4'
  | 5 => '5' | 6 => '6' | 7 => '7' | 8 => '8' | 9 => '9'
  | _ => '?'

/-- Fuel-driven decimal rendering; `fuel ≥ n` suffices. -/
def decStrGo : Nat → Nat → Str
  | 0, n => [digitChar n]
  | fuel + 1, n =>
    if n < 10 then [digitChar n]
    else decStrGo fuel (n / 10) ++ [digitChar (n % 10)]

/-- Decimal rendering of a natural number, as JavaScript number-to-string
conversion produces it for the suffix counter. -/
def decStr (n : Nat) : Str := decStrGo n n

/-- Decimal value of a digit string (left inverse of `decStr`). -/
def decVal (s : Str) : Nat :=
  s.foldl (fun a c => 10 * a + (c.toNat - 48)) 0

theorem decVal_append_digit (s : Str) (c : Char) :
    decVal (s ++ [c]) = 10 * decVal s + (c.toNat - 48) := by
  simp [decVal, List.foldl_append]

theorem decVal_digitChar (n : Nat) (h : n < 10) :
    (decVal [digitChar n]) = n := by
  interval_cases n <;> decide

theorem decVal_decStrGo (fuel n : Nat) (h : n ≤ fuel) :
    decVal (decStrGo fuel n) = n := by
  induction fuel generalizing n with
  | zero =>
    have : n = 0 := Nat.le_zero.mp h
    subst this
    decide
  | succ fuel ih =>
    rw [decStrGo]
    by_cases h10 : n < 10
    · simp [h10, decVal_digitChar n h10]
    · have hdiv : n / 10 ≤ fuel := by
        have : n / 10 < n := Nat.div_lt_self (by omega) (by omega)
        omega
      simp only [h10, if_false]
      rw [decVal_append_digit, ih _ hdiv]
      have : (digitChar (n % 10)).toNat - 48 = n % 10 := by
        have hm : n % 10 < 10 := Nat.mod_lt _ (by omega)
        have := decVal_digitChar (n % 10) hm
        simpa [decVal] using this
      rw [this]
      omega

theorem decVal_decStr (n : Nat) : decVal (decStr n) = n :=
  decVal_decStrGo n n (Nat.le_refl n)

theorem decStr_injective : Function.Injective decStr := by
  intro a b h
  have := congrArg decVal h
  rwa [decVal_decStr, decVal_decStr] at this

/-! ## Node `path` helpers, as the script uses them -/

/-- `path.join(a, b)` for a single separator-free right component. -/
def pjoin (a b : Str) : Str := a ++ '/' :: b

/-- `path.basename`: the final path component (text after the last `/`). -/
def basename (p : Str) : Str :=
  p.foldl (fun acc c => if c = '/' then [] else acc ++ [c]) []

/-- `path.extname`: the suffix of the base name from its last `.`,
empty when there is no `.` past the first character of the base name. -/
def extname (p : Str) : Str :=
  let b := basename p
  let after := (b.reverse.takeWhile (fun c => c ≠ '.')).reverse
  if after.length + 2 ≤ b.length then '.' :: after else []

/-- `path.extname(src).toLowerCase()` as applied in `processAssets`. -/
def extnameLower (p : Str) : Str := (extname p).map Char.toLower

/-! ## Asset Resolver (`processAssets`, lines 136–192)

Destination assignment: candidate `ebookDirectory/basename(src)`; on a
collision with an already-assigned destination, append `_1`, `_2`, …
until an unclaimed name is found (`for (let i = 1; ; ++i)`).  The scan in
the script is unbounded; `scanFrom` carries fuel for totality, and
`claimed.length` fuel is proved sufficient below. -/

/-- `assetDestBase + '_' + i`. -/
def suffixed (base : Str) (i : Nat) : Str := base ++ '_' :: decStr i

/-- The unbounded suffix scan of `processAssets`, with explicit fuel:
try `suffixed base i`; if it is claimed, move to `i+1`. -/
def scanFrom (claimed : List Str) (base : Str) : Nat → Nat → Str
  | i, 0 => suffixed base i
  | i, fuel + 1 =>
    if suffixed base i ∈ claimed then scanFrom claimed base (i + 1) fuel
    else suffixed base i

/-- Destination choice for one source: the base candidate if unclaimed,
otherwise the first unclaimed suffixed candidate. -/
def resolveDest (claimed : List Str) (base : Str) : Str :=
  if base ∈ claimed then scanFrom claimed base 1 claimed.length else base

/-- The assignment loop of `processAssets` (lines 146–162): walk the
sources in enumeration order, keeping the list of already-assigned
destinations (the keys of `assetReverseMap`). -/
def assignGo (wd : Str) : List Str → List Str → List (Str × Str)
  | _, [] => []
  | claimed, src :: rest =>
    let dest := resolveDest claimed (pjoin wd (basename src))
    (src, dest) :: assignGo wd (dest :: claimed) rest

/-- Source→destination assignment for the whole asset set. -/
def assignDests (wd : Str) (srcs : List Str) : List (Str × Str) :=
  assignGo wd [] srcs

/-- `dest.replace(/\.less$/, '.css')` (line 169): rewrite a terminal
`.less` to `.css`, otherwise leave the destination unchanged. -/
def rewriteLessCss (d : Str) : Str :=
  if ".less".toList.isSuffixOf d then d.take (d.length - 5) ++ ".css".toList
  else d

/-- The filesystem path a single asset transform writes (lines 166–188):
a `.less` source writes its compiled output to `cssDest`, the `.xsl` and
default branches write to the assigned destination. -/
def writtenPath (src dest : Str) : Str :=
  if extnameLower src = ".less".toList then rewriteLessCss dest else dest

/-- All paths written by the concurrent transforms of one run. -/
def writtenPaths (wd : Str) (srcs : List Str) : List Str :=
  (assignDests wd srcs).map (fun p => writtenPath p.1 p.2)

/-! ## Correctness of the suffix scan -/

theorem suffixed_injective (base : Str) : Function.Injective (suffixed base) := by
  intro a b h
  have h2 : '_' :: decStr a = '_' :: decStr b := by
    have := h
    unfold suffixed at this
    exact List.append_cancel_left this
  exact decStr_injective (List.cons_injective h2)

/-- Among the candidates `suffixed base 1 … suffixed base (L+1)` at least
one is unclaimed, where `L` is the number of claimed names. -/
theorem exists_unclaimed (claimed : List Str) (base : Str) :
    ∃ k, 1 ≤ k ∧ k ≤ claimed.length + 1 ∧ suffixed base k ∉ claimed := by
  by_contra hall
  push_neg at hall
  set L := claimed.length with hL
  set cand : List Str := (List.range (L + 1)).map (fun j => suffixed base (j + 1))
    with hcand
  have hnodup : cand.Nodup := by
    refine List.Nodup.map ?_ (List.nodup_range (L + 1))
    intro a b hab
    have := suffixed_injective base hab
    omega
  have hsub : cand ⊆ claimed := by
    intro x hx
    rw [hcand, List.mem_map] at hx
    obtain ⟨j, hj, rfl⟩ := hx
    rw [List.mem_range] at hj
    exact hall (j + 1) (by omega) (by omega)
  have hcard1 : cand.toFinset.card = L + 1 := by
    rw [List.toFinset_card_of_nodup hnodup, hcand, List.length_map,
        List.length_range]
  have hcard2 : cand.toFinset ⊆ claimed.toFinset := by
    intro x hx
    rw [List.mem_toFinset] at hx ⊢
    exact hsub hx
  have := Finset.card_le_card hcard2
  have hle := List.toFinset_card_le claimed
  omega

/-- The scan returns the first unclaimed suffixed candidate at or after
`i`, provided one exists within the fuel window. -/
theorem scanFrom_spec (claimed : List Str) (base : Str) :
    ∀ (fuel i : Nat),
    (∃ k, i ≤ k ∧ k ≤ i + fuel ∧ suffixed base k ∉ claimed) →
    ∃ j, i ≤ j ∧ suffixed base j ∉ claimed ∧
      (∀ t, i ≤ t → t < j → suffixed base t ∈ claimed) ∧
      scanFrom claimed base i fuel = suffixed base j := by
  intro fuel
  induction fuel with
  | zero =>
    intro i h
    obtain ⟨k, hk1, hk2, hk3⟩ := h
    have hik : k = i := by omega
    refine ⟨k, by omega, hk3, fun t ht1 ht2 => absurd ht1 (by omega),
      by rw [hik]; rfl⟩
  | succ fuel ih =>
    intro i h
    by_cases hmem : suffixed base i ∈ claimed
    · obtain ⟨k, hk1, hk2, hk3⟩ := h
      have hki : k ≠ i := fun he => hk3 (he ▸ hmem)
      obtain ⟨j, hj1, hj2, hj3, hj4⟩ :=
        ih (i + 1) ⟨k, by omega, by omega, hk3⟩
      refine ⟨j, by omega, hj2, ?_, ?_⟩
      · intro t ht1 ht2
        rcases Nat.eq_or_lt_of_le ht1 with he | hlt
        · exact he ▸ hmem
        · exact hj3 t hlt ht2
      · rw [scanFrom, if_pos hmem]
        exact hj4
    · exact ⟨i, Nat.le_refl i, hmem,
        fun t ht1 ht2 => absurd ht1 (by omega),
        by rw [scanFrom, if_neg hmem]⟩

/-- `resolveDest` never returns an already-claimed name, and when the
base candidate is claimed it returns exactly the first unclaimed
suffixed candidate. -/
theorem resolveDest_spec (claimed : List Str) (base : Str) :
    resolveDest claimed base ∉ claimed ∧
      (base ∉ claimed → resolveDest claimed base = base) ∧
      (base ∈ claimed → ∃ j, 1 ≤ j ∧ suffixed base j ∉ claimed ∧
        (∀ t, 1 ≤ t → t < j → suffixed base t ∈ claimed) ∧
        resolveDest claimed base = suffixed base j) := by
  by_cases hb : base ∈ claimed
  · obtain ⟨k, hk1, hk2, hk3⟩ := exists_unclaimed claimed base
    obtain ⟨j, hj1, hj2, hj3, hj4⟩ :=
      scanFrom_spec claimed base claimed.length 1 ⟨k, hk1, by omega, hk3⟩
    refine ⟨?_, fun h => absurd hb h, fun _ => ⟨j, hj1, hj2, hj3, ?_⟩⟩
    · rw [resolveDest, if_pos hb, hj4]; exact hj2
    · rw [resolveDest, if_pos hb, hj4]
  · exact ⟨by rw [resolveDest, if_neg hb]; exact hb,
      fun _ => by rw [resolveDest, if_neg hb],
      fun h => absurd h hb⟩

/-! ## Properties of the assignment loop -/

theorem assignGo_basic (wd : Str) :
    ∀ (srcs claimed : List Str),
    ((assignGo wd claimed srcs).map Prod.fst = srcs) ∧
    ((assignGo wd claimed srcs).length = srcs.length) ∧
    (∀ d ∈ (assignGo wd claimed srcs).map Prod.snd, d ∉ claimed) ∧
    ((assignGo wd claimed srcs).map Prod.snd).Nodup := by
  intro srcs
  induction srcs with
  | nil => intro claimed; simp [assignGo]
  | cons src rest ih =>
    intro claimed
    obtain ⟨ih1, ih2, ih3, ih4⟩ := ih
      (resolveDest claimed (pjoin wd (basename src)) :: claimed)
    have hres := (resolveDest_spec claimed (pjoin wd (basename src))).1
    refine ⟨?_, ?_, ?_, ?_⟩
    · simp [assignGo, ih1]
    · simp [assignGo, ih2]
    · intro d hd
      simp only [assignGo, List.map_cons, List.mem_cons] at hd
      rcases hd with rfl | hd
      · exact hres
      · have := ih3 d hd
        intro hc
        exact this (List.mem_cons_of_mem _ hc)
    · simp only [assignGo, List.map_cons, List.nodup_cons]
      refine ⟨?_, ih4⟩
      intro hmem
      have := ih3 _ hmem
      exact this (List.mem_cons_self _ _)

theorem assignGo_append (wd : Str) :
    ∀ (a b claimed : List Str),
    assignGo wd claimed (a ++ b) =
      assignGo wd claimed a ++
      assignGo wd (((assignGo wd claimed a).map Prod.snd).reverse ++ claimed) b := by
  intro a
  induction a with
  | nil => intro b claimed; simp [assignGo]
  | cons src rest ih =>
    intro b claimed
    simp only [List.cons_append, assignGo, List.map_cons, List.append_eq]
    rw [ih]
    congr 2
    simp [List.append_assoc]

/-- C2: for distinct asset source paths the resolver assigns pairwise
distinct destinations; an unclaimed base name is kept unchanged as
`workingDir/basename(src)`, and a colliding base name receives the first
unclaimed integer suffix `_1`, `_2`, … scanned in increasing order, so
the source encountered first keeps the unsuffixed name. -/
theorem c2_asset_destination_assignment (wd : Str) (srcs : List Str)
    (_hnd : srcs.Nodup) (a : List Str) (s : Str) (b : List Str)
    (hsplit : srcs = a ++ s :: b) :
    ((assignDests wd srcs).map Prod.snd).Nodup ∧
    (assignDests wd srcs).length = srcs.length ∧
    (assignDests wd srcs).map Prod.fst = srcs ∧
    (∃ d, (assignDests wd srcs)[a.length]? = some (s, d) ∧
      (pjoin wd (basename s) ∉
          (((assignDests wd srcs).map Prod.snd).take a.length) →
        d = pjoin wd (basename s)) ∧
      (pjoin wd (basename s) ∈
          (((assignDests wd srcs).map Prod.snd).take a.length) →
        ∃ j, 1 ≤ j ∧ d = suffixed (pjoin wd (basename s)) j ∧
          suffixed (pjoin wd (basename s)) j ∉
            (((assignDests wd srcs).map Prod.snd).take a.length) ∧
          ∀ t, 1 ≤ t → t < j →
            suffixed (pjoin wd (basename s)) t ∈
              (((assignDests wd srcs).map Prod.snd).take a.length))) := by
  subst hsplit
  obtain ⟨hfull1, hfull2, _, hfull4⟩ := assignGo_basic wd (a ++ s :: b) []
  refine ⟨hfull4, hfull2.trans (by simp), hfull1, ?_⟩
  have happ := assignGo_append wd a (s :: b) []
  obtain ⟨ha1, ha2, _, _⟩ := assignGo_basic wd a []
  set X := assignGo wd [] a with hX
  set C := ((X.map Prod.snd).reverse ++ ([] : List Str)) with hC
  set base := pjoin wd (basename s) with hbase
  have hmemC : ∀ x, x ∈ C ↔ x ∈ X.map Prod.snd := by
    intro x
    rw [hC]
    simp
  have hXlen : (X.map Prod.snd).length = a.length := by
    rw [List.length_map, ha2]
  have htake :
      (((assignDests wd (a ++ s :: b)).map Prod.snd).take a.length) =
        X.map Prod.snd := by
    unfold assignDests
    rw [happ, List.map_append, ← hXlen]
    exact List.take_left _ _
  have hat : (assignDests wd (a ++ s :: b))[a.length]? =
      some (s, resolveDest C base) := by
    unfold assignDests
    rw [happ]
    rw [List.getElem?_append_right ha2.le]
    rw [ha2, Nat.sub_self]
    simp [assignGo]
  obtain ⟨hr1, hr2, hr3⟩ := resolveDest_spec C base
  refine ⟨resolveDest C base, hat, ?_, ?_⟩
  · intro hnmem
    exact hr2 (fun hc => hnmem (htake ▸ (hmemC base).mp hc))
  · intro hmem
    obtain ⟨j, hj1, hj2, hj3, hj4⟩ :=
      hr3 ((hmemC base).mpr (htake ▸ hmem))
    refine ⟨j, hj1, hj4, ?_, ?_⟩
    · rw [htake]
      exact fun hc => hj2 ((hmemC _).mpr hc)
    · intro t ht1 ht2
      rw [htake]
      exact (hmemC _).mp (hj3 t ht1 ht2)

/-- Witness for C2: concrete two-source collision `a/x.png`, `b/x.png`. -/
theorem c2_asset_destination_assignment_witness :
    ((assignDests "W".toList ["a/x.png".toList, "b/x.png".toList]).map
      Prod.snd).Nodup :=
  (c2_asset_destination_assignment "W".toList
    ["a/x.png".toList, "b/x.png".toList] (by decide)
    ["a/x.png".toList] "b/x.png".toList [] rfl).1

/-! ## Written-path analysis (C7, C10) -/

/-- In a list of pairs whose second components are distinct, a member is
determined by its second component. -/
theorem pair_eq_of_snd_nodup {α β : Type} :
    ∀ (l : List (α × β)), (l.map Prod.snd).Nodup →
      ∀ a ∈ l, ∀ b ∈ l, a.2 = b.2 → a = b := by
  intro l
  induction l with
  | nil =>
    intro _ a ha
    exact absurd ha (List.not_mem_nil a)
  | cons x xs ih =>
    intro hnd a ha b hb heq
    simp only [List.map_cons, List.nodup_cons] at hnd
    rcases List.mem_cons.mp ha with rfl | ha2
    · rcases List.mem_cons.mp hb with rfl | hb2
      · rfl
      · exact absurd (heq ▸ List.mem_map_of_mem Prod.snd hb2) hnd.1
    · rcases List.mem_cons.mp hb with rfl | hb2
      · exact absurd (heq ▸ List.mem_map_of_mem Prod.snd ha2) hnd.1
      · exact ih hnd.2 a ha2 b hb2 heq

/-- Two suffixes of the same list with equal lengths are equal. -/
theorem suffix_eq_of_length {α : Type} {s1 s2 d : List α}
    (h1 : s1 <:+ d) (h2 : s2 <:+ d) (hl : s1.length = s2.length) :
    s1 = s2 := by
  obtain ⟨t1, ht1⟩ := h1
  obtain ⟨t2, ht2⟩ := h2
  rw [← ht1] at ht2
  have hlen : t2.length = t1.length := by
    have := congrArg List.length ht2
    simp only [List.length_append] at this
    omega
  exact ((List.append_inj ht2 hlen).2).symm ▸ rfl

theorem rewriteLessCss_of_suffix {d : Str}
    (h : ".less".toList.isSuffixOf d = true) :
    rewriteLessCss d = d.take (d.length - 5) ++ ".css".toList := by
  rw [rewriteLessCss, if_pos h]

theorem rewriteLessCss_css_suffix {d : Str}
    (h : ".less".toList.isSuffixOf d = true) :
    ".css".toList <:+ rewriteLessCss d := by
  rw [rewriteLessCss_of_suffix h]
  exact ⟨d.take (d.length - 5), rfl⟩

theorem rewriteLessCss_ne_of_suffix {d : Str}
    (h : ".less".toList.isSuffixOf d = true) :
    rewriteLessCss d ≠ d := by
  have hsuf : ".less".toList <:+ d := List.isSuffixOf_iff_suffix.mp h
  have hlen : 5 ≤ d.length := by
    have := hsuf.length_le
    simpa using this
  intro he
  have := congrArg List.length he
  rw [rewriteLessCss_of_suffix h] at this
  simp only [List.length_append, List.length_take] at this
  have : min (d.length - 5) d.length + 4 = d.length := by simpa using this
  omega

/-- A list cannot end both in `.less` and in `.css`. -/
theorem not_less_and_css_suffix {d : Str}
    (h1 : ".less".toList <:+ d) (h2 : ".css".toList <:+ d) : False := by
  have hless : "less".toList <:+ d := by
    refine List.IsSuffix.trans ?_ h1
    exact ⟨['.'], rfl⟩
  have := suffix_eq_of_length hless h2 (by decide)
  simp at this

/-- C7 (amended): before any write occurs, the destination paths the
resolver assigns are pairwise distinct, so no two transforms target the
same assigned destination; the paths actually written, however, are the
assigned destinations with a terminal `.less` rewritten to `.css` for
style-sheet assets, and those written paths are not guaranteed unique. -/
theorem c7_assigned_destinations_unique (wd : Str) (srcs : List Str) :
    ((assignDests wd srcs).map Prod.snd).Nodup :=
  (assignGo_basic wd srcs []).2.2.2

/-- Counterexample to C7 as stated: sources `a/style.less` and
`b/style.css` receive distinct destinations, yet the `.less` transform
writes its compiled output to `W/style.css`, the very path the copy
transform writes — two concurrent transforms write the same path. -/
theorem c7_counterexample :
    writtenPaths "W".toList ["a/style.less".toList, "b/style.css".toList] =
      ["W/style.css".toList, "W/style.css".toList] ∧
    ¬ (writtenPaths "W".toList
        ["a/style.less".toList, "b/style.css".toList]).Nodup := by
  decide

/-- C10 (amended): for a style-sheet (`.less`) asset the transform
writes `rewriteLessCss dest`, while the returned asset map records
`dest` itself.  When `dest` ends in `.less` (the un-suffixed case) the
written path differs from the recorded one and no transform of the run
writes to the recorded destination; when `dest` does not end in `.less`
(a collision-suffixed destination) the compiled output is written to the
recorded destination itself. -/
theorem c10_less_destination (wd : Str) (srcs : List Str) (src dest : Str)
    (hmem : (src, dest) ∈ assignDests wd srcs)
    (hless : extnameLower src = ".less".toList) :
    writtenPath src dest = rewriteLessCss dest ∧
    (".less".toList.isSuffixOf dest = true →
      rewriteLessCss dest = dest.take (dest.length - 5) ++ ".css".toList ∧
      rewriteLessCss dest ≠ dest ∧
      dest ∉ writtenPaths wd srcs) ∧
    (".less".toList.isSuffixOf dest = false →
      writtenPath src dest = dest ∧ dest ∈ writtenPaths wd srcs) := by
  have hnodup := (assignGo_basic wd srcs []).2.2.2
  have hw : writtenPath src dest = rewriteLessCss dest := by
    rw [writtenPath, if_pos hless]
  refine ⟨hw, ?_, ?_⟩
  · intro hsuf
    refine ⟨rewriteLessCss_of_suffix hsuf, rewriteLessCss_ne_of_suffix hsuf, ?_⟩
    intro hin
    rw [writtenPaths] at hin
    obtain ⟨p, hp, hpw⟩ := List.mem_map.mp hin
    by_cases hpl : extnameLower p.1 = ".less".toList
    · rw [writtenPath, if_pos hpl] at hpw
      by_cases hps : ".less".toList.isSuffixOf p.2 = true
      · have hcss : ".css".toList <:+ dest := hpw ▸ rewriteLessCss_css_suffix hps
        exact not_less_and_css_suffix (List.isSuffixOf_iff_suffix.mp hsuf) hcss
      · rw [rewriteLessCss, if_neg hps] at hpw
        exact hps (by rw [hpw]; exact hsuf)
    · rw [writtenPath, if_neg hpl] at hpw
      have := pair_eq_of_snd_nodup _ hnodup p hp (src, dest) hmem hpw
      rw [this] at hpl
      exact hpl hless
  · intro hsuf
    have hwr : writtenPath src dest = dest := by
      rw [hw, rewriteLessCss, if_neg (by rw [hsuf]; decide)]
    refine ⟨hwr, ?_⟩
    rw [writtenPaths]
    exact hwr ▸ List.mem_map_of_mem (fun p => writtenPath p.1 p.2) hmem

/-- Witness for the amended C10: with sole asset `a/x.less` the recorded
destination `W/x.less` is never written. -/
theorem c10_less_destination_witness :
    "W/x.less".toList ∉ writtenPaths "W".toList ["a/x.less".toList] :=
  ((c10_less_destination "W".toList ["a/x.less".toList] "a/x.less".toList
      "W/x.less".toList (by decide) (by decide)).2.1 (by decide)).2.2

/-- Counterexample to C10 as stated: with sources `a/x.less` and
`b/x.less` the second style-sheet asset is assigned the suffixed
destination `W/x.less_1`; its compiled output is written to that very
recorded destination (the `.less` → `.css` rewrite does not apply), so
the map's destination for it is a path that *is* written. -/
theorem c10_counterexample :
    (assignDests "W".toList ["a/x.less".toList, "b/x.less".toList])[1]? =
      some ("b/x.less".toList, "W/x.less_1".toList) ∧
    writtenPath "b/x.less".toList "W/x.less_1".toList =
      "W/x.less_1".toList ∧
    "W/x.less_1".toList ∈
      writtenPaths "W".toList ["a/x.less".toList, "b/x.less".toList] := by
  decide

/-! ## Table-of-Contents Flattener (`_processNodes`, lines 48–57)

The nested `<li>` outline is modelled as a rose tree: each item carries
its link address (`@href`), its normalized label text, and its nested
sub-list.  `processForest` is the translation of `_processNodes`: visit
the items in order, push a descriptor at the current level, recurse into
the sub-list at `level + 1`, then continue with the siblings. -/

/-- One entry of `this._docList`. -/
structure PageDesc where
  url : Str
  title : Str
  level : Nat
deriving DecidableEq

/-- One outline item: link address, label, nested sub-items. -/
inductive TocNode where
  | node : Str → Str → List TocNode → TocNode

/-- `_processNodes(select, nodes, level)`: the emitted descriptor list. -/
def processForest : List TocNode → Nat → List PageDesc
  | [], _ => []
  | TocNode.node u t cs :: rest, l =>
    ⟨u, t, l⟩ :: (processForest cs (l + 1) ++ processForest rest l)

/-- Number of items of a nested outline. -/
def forestSize : List TocNode → Nat
  | [] => 0
  | TocNode.node _ _ cs :: rest => 1 + forestSize cs + forestSize rest

/-- Depth of a nested outline (0 for the empty outline). -/
def forestDepth : List TocNode → Nat
  | [] => 0
  | TocNode.node _ _ cs :: rest => max (1 + forestDepth cs) (forestDepth rest)

/-- Modelled from the spec: pre-order flattening of one outline node —
emit its descriptor, then the flattened sub-lists of its children at the
next depth. -/
def preorderNode : TocNode → Nat → List PageDesc
  | TocNode.node u t cs, l =>
    ⟨u, t, l⟩ :: (cs.attach.map (fun c => preorderNode c.1 (l + 1))).flatten
decreasing_by
  simp_wf
  have := List.sizeOf_lt_of_mem c.2
  omega

/-- Modelled from the spec: pre-order flattening of a whole outline. -/
def preorderSpecForest (ns : List TocNode) (l : Nat) : List PageDesc :=
  (ns.map (fun n => preorderNode n l)).flatten

theorem processForest_eq_preorder :
    ∀ ns l, processForest ns l = preorderSpecForest ns l := by
  intro ns l
  induction ns, l using processForest.induct with
  | case1 l => simp [processForest, preorderSpecForest]
  | case2 u t cs rest l ih1 ih2 =>
    simp only [processForest, preorderSpecForest, List.map_cons,
      List.flatten, preorderNode, ih1, ih2]
    simp [List.attach_map_coe]

theorem processForest_length :
    ∀ ns l, (processForest ns l).length = forestSize ns := by
  intro ns l
  induction ns, l using processForest.induct with
  | case1 l => simp [processForest, forestSize]
  | case2 u t cs rest l ih1 ih2 =>
    simp [processForest, forestSize, ih1, ih2]
    omega

theorem processForest_levels :
    ∀ ns l, ∀ p ∈ processForest ns l,
      l ≤ p.level ∧ p.level < l + forestDepth ns := by
  intro ns l
  induction ns, l using processForest.induct with
  | case1 l => intro p hp; simp [processForest] at hp
  | case2 u t cs rest l ih1 ih2 =>
    intro p hp
    simp only [processForest, List.mem_cons, List.mem_append] at hp
    rcases hp with rfl | hp | hp
    · dsimp only
      simp only [forestDepth]
      omega
    · obtain ⟨h1, h2⟩ := ih1 p hp
      simp only [forestDepth]
      omega
    · obtain ⟨h1, h2⟩ := ih2 p hp
      simp only [forestDepth]
      omega

/-- C3: the flattener emits exactly one descriptor per outline item, in
pre-order; descriptors of a node's children carry the node's level plus
one, top-level items carry level 1, and no level exceeds the outline's
depth. -/
theorem c3_toc_flattening (ns : List TocNode) :
    (processForest ns 1).length = forestSize ns ∧
    processForest ns 1 = preorderSpecForest ns 1 ∧
    (∀ u t cs rest l, processForest (TocNode.node u t cs :: rest) l =
      ⟨u, t, l⟩ :: (processForest cs (l + 1) ++ processForest rest l)) ∧
    (∀ p ∈ processForest ns 1, 1 ≤ p.level ∧ p.level ≤ forestDepth ns) := by
  refine ⟨processForest_length ns 1, processForest_eq_preorder ns 1,
    fun u t cs rest l => by rw [processForest], fun p hp => ?_⟩
  obtain ⟨h1, h2⟩ := processForest_levels ns 1 p hp
  omega

/-- Witness for C3 at a concrete two-level outline. -/
theorem c3_toc_flattening_witness :
    1 ≤ (⟨"b".toList, "B".toList, 2⟩ : PageDesc).level ∧
    (⟨"b".toList, "B".toList, 2⟩ : PageDesc).level ≤
      forestDepth
        [TocNode.node "a".toList "A".toList
          [TocNode.node "b".toList "B".toList []],
         TocNode.node "c".toList "C".toList []] :=
  (c3_toc_flattening
    [TocNode.node "a".toList "A".toList
      [TocNode.node "b".toList "B".toList []],
     TocNode.node "c".toList "C".toList []]).2.2.2
    ⟨"b".toList, "B".toList, 2⟩ (by simp [processForest])

/-! ## Render Invocation Builder (`_doCommand`, lines 59–110)

The argument array built for `wkhtmltopdf` is modelled as a token list.
The external path computations of the script — `path.relative`,
`path.normalize` and the `file-url`-based `getQTCompatibleFileUrl` — and
the asset-map lookup `_getAssetDescPath` are abstracted as function
parameters `rel`, `norm`, `qurl` and `assetDest`. -/

/-- `config.margin`. -/
structure MarginCfg where
  top : Str
  bottom : Str
  left : Str
  right : Str

/-- `config.header` / `config.footer`. -/
structure SectionCfg where
  contentHtml : Option Str
  spacing : Str

/-- The `wkhtmltopdf` section of the configuration, as `_doCommand`
reads it (absent options are `none`). -/
structure WkConfig where
  margin : MarginCfg
  title : Option Str
  cover : Option Str
  tocXsl : Option Str
  header : SectionCfg
  footer : SectionCfg

/-- The command-line options consumed by `_doCommand`. -/
structure CmdOpts where
  ebookDirectory : Str
  outputFile : Str
  zoom : Str
  javascriptDelay : Str

/-- The `--<section>-html`/`--<section>-spacing` tokens added for a
configured header or footer (lines 86–94). -/
def sectionTokens (name : Str) (qurl : Str → Str) (assetDest : Str → Str)
    (s : SectionCfg) : List Str :=
  match s.contentHtml with
  | none => []
  | some c =>
    ["--".toList ++ name ++ "-html".toList, qurl (assetDest c),
     "--".toList ++ name ++ "-spacing".toList, s.spacing]

/-- `_doCommand`'s sequential construction of the argument array
(`args.push` by `args.push`). -/
def doCommandArgs (rel : Str → Str → Str) (norm : Str → Str)
    (qurl : Str → Str) (assetDest : Str → Str)
    (config : WkConfig) (cmd : CmdOpts) (docList : List PageDesc) :
    List Str :=
  let args0 := ["-T".toList, config.margin.top,
                "-B".toList, config.margin.bottom,
                "-L".toList, config.margin.left,
                "-R".toList, config.margin.right]
  let args1 := match config.title with
    | some t => args0 ++ ["--title".toList, t]
    | none => args0
  let argsForAllPages :=
    ["--zoom".toList, cmd.zoom, "--debug-javascript".toList,
     "--javascript-delay".toList, cmd.javascriptDelay]
  let args2 := match config.cover with
    | some c =>
      args1 ++ ["cover".toList, rel cmd.ebookDirectory (assetDest c),
                "--exclude-from-outline".toList] ++ argsForAllPages
    | none => args1
  let args3 := args2 ++ "toc".toList :: argsForAllPages
  let args4 := match config.tocXsl with
    | some x =>
      args3 ++ ["--xsl-style-sheet".toList,
                rel cmd.ebookDirectory (assetDest x)]
    | none => args3
  let argsForNormalPages := argsForAllPages ++
    sectionTokens "header".toList qurl assetDest config.header ++
    sectionTokens "footer".toList qurl assetDest config.footer
  let args5 := args4 ++
    (docList.map (fun d => norm d.url :: argsForNormalPages)).flatten
  args5 ++ [rel cmd.ebookDirectory cmd.outputFile]

/-! Modelled from the spec: the claimed block structure of the argument
sequence, one named block per clause of the ordering rules. -/

/-- The four margin options, in order. -/
def specMarginBlock (config : WkConfig) : List Str :=
  ["-T".toList, config.margin.top, "-B".toList, config.margin.bottom,
   "-L".toList, config.margin.left, "-R".toList, config.margin.right]

/-- The title option, if configured. -/
def specTitleBlock (config : WkConfig) : List Str :=
  match config.title with
  | some t => ["--title".toList, t]
  | none => []

/-- The shared per-section options (zoom, debug flag, render delay). -/
def specSharedSection (cmd : CmdOpts) : List Str :=
  ["--zoom".toList, cmd.zoom, "--debug-javascript".toList,
   "--javascript-delay".toList, cmd.javascriptDelay]

/-- The cover block, if a cover is configured; empty otherwise. -/
def specCoverBlock (rel : Str → Str → Str) (assetDest : Str → Str)
    (config : WkConfig) (cmd : CmdOpts) : List Str :=
  match config.cover with
  | some c =>
    ["cover".toList, rel cmd.ebookDirectory (assetDest c),
     "--exclude-from-outline".toList] ++ specSharedSection cmd
  | none => []

/-- The toc block: section token, shared per-section options, and the
TOC stylesheet option if configured. -/
def specTocBlock (rel : Str → Str → Str) (assetDest : Str → Str)
    (config : WkConfig) (cmd : CmdOpts) : List Str :=
  "toc".toList :: specSharedSection cmd ++
    (match config.tocXsl with
     | some x => ["--xsl-style-sheet".toList,
                  rel cmd.ebookDirectory (assetDest x)]
     | none => [])

/-- The shared per-normal-page option set, computed once. -/
def specSharedNormal (qurl : Str → Str) (assetDest : Str → Str)
    (config : WkConfig) (cmd : CmdOpts) : List Str :=
  specSharedSection cmd ++
    sectionTokens "header".toList qurl assetDest config.header ++
    sectionTokens "footer".toList qurl assetDest config.footer

/-- One block per page descriptor, in sequence order: the normalized
locator followed by the one shared per-normal-page option set. -/
def specPagesBlock (norm : Str → Str) (qurl : Str → Str)
    (assetDest : Str → Str) (config : WkConfig) (cmd : CmdOpts)
    (docList : List PageDesc) : List Str :=
  (docList.map
    (fun d => norm d.url :: specSharedNormal qurl assetDest config cmd)).flatten

/-- The full claimed token sequence. -/
def renderPlanSpec (rel : Str → Str → Str) (norm : Str → Str)
    (qurl : Str → Str) (assetDest : Str → Str)
    (config : WkConfig) (cmd : CmdOpts) (docList : List PageDesc) :
    List Str :=
  specMarginBlock config ++ specTitleBlock config ++
  specCoverBlock rel assetDest config cmd ++
  specTocBlock rel assetDest config cmd ++
  specPagesBlock norm qurl assetDest config cmd docList ++
  [rel cmd.ebookDirectory cmd.outputFile]

theorem doCommandArgs_eq_spec (rel : Str → Str → Str) (norm : Str → Str)
    (qurl : Str → Str) (assetDest : Str → Str)
    (config : WkConfig) (cmd : CmdOpts) (docList : List PageDesc) :
    doCommandArgs rel norm qurl assetDest config cmd docList =
      renderPlanSpec rel norm qurl assetDest config cmd docList := by
  simp only [doCommandArgs, renderPlanSpec, specMarginBlock, specTitleBlock,
    specCoverBlock, specTocBlock, specSharedNormal, specPagesBlock,
    specSharedSection]
  cases config.title <;> cases config.cover <;> cases config.tocXsl <;>
    simp [List.append_assoc]

/-- C1: the invocation builder produces exactly the margin options, then
the title option if configured, then the cover block if configured, then
the toc block (shared per-section options, then the stylesheet option if
configured), then one block per page descriptor in sequence order — each
consisting of the normalized locator followed by the one shared
per-normal-page option set — and finally the output path relative to the
working directory; with no cover configured no cover tokens appear. -/
theorem c1_render_invocation_order (rel : Str → Str → Str)
    (norm : Str → Str) (qurl : Str → Str) (assetDest : Str → Str)
    (config : WkConfig) (cmd : CmdOpts) (docList : List PageDesc) :
    (doCommandArgs rel norm qurl assetDest config cmd docList =
      specMarginBlock config ++ specTitleBlock config ++
      specCoverBlock rel assetDest config cmd ++
      specTocBlock rel assetDest config cmd ++
      specPagesBlock norm qurl assetDest config cmd docList ++
      [rel cmd.ebookDirectory cmd.outputFile]) ∧
    (∀ (m : MarginCfg) (t x : Option Str) (hd ft : SectionCfg),
      doCommandArgs rel norm qurl assetDest ⟨m, t, none, x, hd, ft⟩ cmd
          docList =
        specMarginBlock ⟨m, t, none, x, hd, ft⟩ ++
        specTitleBlock ⟨m, t, none, x, hd, ft⟩ ++
        specTocBlock rel assetDest ⟨m, t, none, x, hd, ft⟩ cmd ++
        specPagesBlock norm qurl assetDest ⟨m, t, none, x, hd, ft⟩ cmd
          docList ++
        [rel cmd.ebookDirectory cmd.outputFile]) := by
  constructor
  · exact doCommandArgs_eq_spec rel norm qurl assetDest config cmd docList
  · intro m t x hd ft
    rw [doCommandArgs_eq_spec]
    simp [renderPlanSpec, specCoverBlock]

/-- C9: with no cover, no TOC stylesheet and no header or footer
template configured, the builder totally computes the token sequence and
simply omits every optional token: no cover block, no stylesheet option
and no header/footer options anywhere. -/
theorem c9_optional_tokens_omitted (rel : Str → Str → Str)
    (norm : Str → Str) (qurl : Str → Str) (assetDest : Str → Str)
    (m : MarginCfg) (t : Option Str) (sp1 sp2 : Str) (cmd : CmdOpts)
    (docList : List PageDesc) :
    doCommandArgs rel norm qurl assetDest
        ⟨m, t, none, none, ⟨none, sp1⟩, ⟨none, sp2⟩⟩ cmd docList =
      specMarginBlock ⟨m, t, none, none, ⟨none, sp1⟩, ⟨none, sp2⟩⟩ ++
      specTitleBlock ⟨m, t, none, none, ⟨none, sp1⟩, ⟨none, sp2⟩⟩ ++
      ("toc".toList :: specSharedSection cmd) ++
      (docList.map (fun d => norm d.url :: specSharedSection cmd)).flatten ++
      [rel cmd.ebookDirectory cmd.outputFile] := by
  rw [doCommandArgs_eq_spec]
  simp [renderPlanSpec, specCoverBlock, specTocBlock, specPagesBlock,
    specSharedNormal, sectionTokens]

/-! ## Promise wiring of `processAssets` and the top-level chain
(lines 164–192 and 227–245)

A settled or unsettled promise is modelled by `POut`: resolved with a
value, rejected with an error, or pending forever.  The results of the
individual external operations (file reads, LESS compilation, copies,
config loading, the summary pipeline, the final render step) are inputs
of the model, each an `Except` value. -/

/-- Outcome of a promise: resolved, rejected, or never settled. -/
inductive POut (α : Type) where
  | resolved : α → POut α
  | rejected : String → POut α
  | pending : POut α
deriving DecidableEq

/-- `Promise.all` over the transform results: the first error, if any. -/
def firstErr : List (Except String Unit) → Option String
  | [] => none
  | Except.ok _ :: rest => firstErr rest
  | Except.error e :: _ => some e

/-- The promise returned by `processAssets` (lines 164–191): the
executor calls `resolve(assetMap)` when `Promise.all` fulfils, but wires
no rejection handler — on a transform failure neither `resolve` nor
`reject` is ever called, so the promise stays pending forever. -/
def processAssetsOutcome {α : Type} (transforms : List (Except String Unit))
    (assetMap : α) : POut α :=
  match firstErr transforms with
  | none => POut.resolved assetMap
  | some _ => POut.pending

/-- The top-level chain (lines 227–244):
`loadConfig → (processSummary, processAssets) → process`. -/
def chainOutcome {α : Type} (configR : Except String Unit)
    (summaryR : Except String Unit)
    (transforms : List (Except String Unit)) (assetMap : α)
    (processR : Except String Unit) : POut Unit :=
  match configR with
  | Except.error e => POut.rejected e
  | Except.ok _ =>
    match summaryR with
    | Except.error e => POut.rejected e
    | Except.ok _ =>
      match processAssetsOutcome transforms assetMap with
      | POut.pending => POut.pending
      | POut.rejected e => POut.rejected e
      | POut.resolved _ =>
        match processR with
        | Except.error e => POut.rejected e
        | Except.ok _ => POut.resolved ()

/-- Observable result of one run: the process exit code and the
diagnostic printed by the final handler, if any. -/
structure RunResult where
  exitCode : Nat
  diagnostic : Option String
deriving DecidableEq

/-- Line 245, `.catch(err => {console.error(err.stack);})`: a rejection
reaching the end of the chain is caught and printed, after which the
process exits normally (code 0); a resolved or forever-pending chain
also lets the event loop drain and exit with code 0. -/
def topLevel {α : Type} (configR : Except String Unit)
    (summaryR : Except String Unit)
    (transforms : List (Except String Unit)) (assetMap : α)
    (processR : Except String Unit) : RunResult :=
  match chainOutcome configR summaryR transforms assetMap processR with
  | POut.resolved _ => ⟨0, none⟩
  | POut.rejected e => ⟨0, some e⟩
  | POut.pending => ⟨0, none⟩

/-- C4 at the failing input: one failing transform (e.g. a LESS parse
error) leaves the `processAssets` promise pending forever — the failure
is not propagated as the resolution's error, no (partial) asset map is
resolved, and the continuation never runs. -/
theorem c4_transform_failure_swallowed :
    processAssetsOutcome [Except.error "less: parse failed"] () =
      POut.pending ∧
    (∀ e : String,
      processAssetsOutcome [Except.error "less: parse failed"] () ≠
        POut.rejected e) ∧
    (∀ m : Unit,
      processAssetsOutcome [Except.error "less: parse failed"] () ≠
        POut.resolved m) := by
  refine ⟨rfl, ?_, ?_⟩ <;> intro x <;> simp [processAssetsOutcome, firstErr]

/-- Counterexample to C5 as stated: a configuration-loading error
reaches the final handler, which prints the diagnostic, and the process
then exits with code 0 — not with a non-zero outcome. -/
theorem c5_counterexample :
    topLevel (Except.error "ENOENT: book.json") (Except.ok ()) [] ()
        (Except.ok ()) =
      ⟨0, some "ENOENT: book.json"⟩ ∧
    (topLevel (Except.error "ENOENT: book.json") (Except.ok ()) [] ()
        (Except.ok ())).exitCode = 0 := by
  exact ⟨rfl, rfl⟩

/-- C5 (amended): the run always terminates with a zero outcome.  An
error raised by configuration loading, summary processing or the render
step propagates uncaught to the final top-level handler and is reported
as a diagnostic; a failed asset transform instead leaves the chain
pending forever: the handler never runs and nothing is reported.  In
every failure case the failed stage's continuation never runs. -/
theorem c5_error_propagation (configR summaryR : Except String Unit)
    (transforms : List (Except String Unit))
    (processR : Except String Unit) :
    ((topLevel configR summaryR transforms () processR).exitCode = 0) ∧
    (∀ e, configR = Except.error e →
      topLevel configR summaryR transforms () processR = ⟨0, some e⟩) ∧
    (∀ e, configR = Except.ok () → summaryR = Except.error e →
      topLevel configR summaryR transforms () processR = ⟨0, some e⟩) ∧
    (∀ e, configR = Except.ok () → summaryR = Except.ok () →
      firstErr transforms = some e →
      topLevel configR summaryR transforms () processR = ⟨0, none⟩ ∧
      chainOutcome configR summaryR transforms () processR =
        POut.pending) ∧
    (∀ e, configR = Except.ok () → summaryR = Except.ok () →
      firstErr transforms = none → processR = Except.error e →
      topLevel configR summaryR transforms () processR = ⟨0, some e⟩) := by
  refine ⟨?_, ?_, ?_, ?_, ?_⟩
  · simp only [topLevel]
    split <;> rfl
  · intro e he
    subst he
    rfl
  · intro e hc hs
    subst hc
    subst hs
    rfl
  · intro e hc hs hf
    subst hc
    subst hs
    constructor <;>
      simp [topLevel, chainOutcome, processAssetsOutcome, hf]
  · intro e hc hs hf hp
    subst hc
    subst hs
    subst hp
    simp [topLevel, chainOutcome, processAssetsOutcome, hf]

/-- Witness for the amended C5 at a concrete configuration error. -/
theorem c5_error_propagation_witness :
    topLevel (Except.error "boom") (Except.ok ()) [] () (Except.ok ()) =
      ⟨0, some "boom"⟩ :=
  (c5_error_propagation (Except.error "boom") (Except.ok ()) [] 
    (Except.ok ())).2.1 "boom" rfl

/-! ## `filterInt` (lines 20–24)

`/^(\-|\+)?([0-9]+|Infinity)$/.test(value)` followed by `Number(value)`.
The accepted value is an optionally signed digit string or the literal
`Infinity`; the produced JavaScript number is an integer or an infinity,
modelled by `JsNumber`. -/

/-- `[0-9]` character class. -/
def isDigitChar (c : Char) : Bool := '0' ≤ c && c ≤ '9'

/-- The `([0-9]+|Infinity)` part of the regular expression. -/
def intRegexBody (t : Str) : Bool :=
  (!t.isEmpty && t.all isDigitChar) || t == "Infinity".toList

/-- The full anchored regular expression of `filterInt`. -/
def matchesIntRegex (s : Str) : Bool :=
  match s with
  | [] => intRegexBody []
  | c :: rest =>
    if c = '-' then intRegexBody rest
    else if c = '+' then intRegexBody rest
    else intRegexBody (c :: rest)

/-- A JavaScript number produced by `Number` on an accepted input. -/
inductive JsNumber where
  | int : Int → JsNumber
  | posInf : JsNumber
  | negInf : JsNumber
deriving DecidableEq

/-- `Number(value)` on a regex-accepted value. -/
def jsNumberOf (s : Str) : JsNumber :=
  match s with
  | [] => JsNumber.int 0
  | c :: rest =>
    if c = '-' then
      (if rest == "Infinity".toList then JsNumber.negInf
       else JsNumber.int (-(decVal rest : Int)))
    else if c = '+' then
      (if rest == "Infinity".toList then JsNumber.posInf
       else JsNumber.int (decVal rest))
    else
      (if (c :: rest) == "Infinity".toList then JsNumber.posInf
       else JsNumber.int (decVal (c :: rest)))

/-- `filterInt`: return the converted number when the regular expression
accepts, otherwise throw. -/
def filterInt (s : Str) : Except String JsNumber :=
  if matchesIntRegex s then Except.ok (jsNumberOf s)
  else Except.error "Unable to parse as an integer."

/-- Modelled from the spec: acceptance of exactly the non-negative
integers (a digit string, optionally with a leading `+`). -/
def nonNegIntegerString (s : Str) : Bool :=
  match s with
  | '+' :: rest => !rest.isEmpty && rest.all isDigitChar
  | _ => !s.isEmpty && s.all isDigitChar

/-- Counterexample to C6 as stated: `-5` is not a non-negative integer,
yet `filterInt` accepts it (returning the negative value), and the
non-integer `Infinity` is accepted as well. -/
theorem c6_counterexample :
    filterInt "-5".toList = Except.ok (JsNumber.int (-5)) ∧
    nonNegIntegerString "-5".toList = false ∧
    filterInt "Infinity".toList = Except.ok JsNumber.posInf :=
  ⟨rfl, rfl, rfl⟩

/-- C6 (amended): the render-delay argument is accepted exactly when it
is an optionally signed digit string or an optionally signed literal
`Infinity`; accepted inputs convert to the corresponding (possibly
negative or infinite) value, and every other input raises the fatal
parse error before any work begins. -/
theorem c6_filter_int (ds : Str) (hne : ds ≠ [])
    (hdig : ∀ c ∈ ds, isDigitChar c = true) :
    filterInt ds = Except.ok (JsNumber.int (decVal ds)) ∧
    filterInt ('-' :: ds) =
      Except.ok (JsNumber.int (-(decVal ds : Int))) ∧
    filterInt ('+' :: ds) = Except.ok (JsNumber.int (decVal ds)) ∧
    filterInt "Infinity".toList = Except.ok JsNumber.posInf ∧
    filterInt ('-' :: "Infinity".toList) = Except.ok JsNumber.negInf ∧
    (∀ s, matchesIntRegex s = false →
      filterInt s = Except.error "Unable to parse as an integer.") := by
  have hnotInf : (ds == "Infinity".toList) = false := by
    cases hb : ds == "Infinity".toList
    · rfl
    · exfalso
      have heq : ds = "Infinity".toList := eq_of_beq hb
      subst heq
      exact absurd (hdig 'I' (by decide)) (by decide)
  have hall : ds.all isDigitChar = true := by
    rw [List.all_eq_true]
    intro x hx
    rw [hdig x hx]
  have hbody : intRegexBody ds = true := by
    rw [intRegexBody, hall, hnotInf]
    cases ds with
    | nil => exact absurd rfl hne
    | cons c cs => rfl
  obtain ⟨c, cs, rfl⟩ : ∃ c cs, ds = c :: cs := by
    cases ds with
    | nil => exact absurd rfl hne
    | cons c cs => exact ⟨c, cs, rfl⟩
  have hc := hdig c (List.mem_cons_self c cs)
  have hcm : c ≠ '-' := fun he => by
    rw [he] at hc
    exact absurd hc (by decide)
  have hcp : c ≠ '+' := fun he => by
    rw [he] at hc
    exact absurd hc (by decide)
  have hneInf : ¬ (((c :: cs) == "Infinity".toList) = true) := by
    rw [hnotInf]
    decide
  refine ⟨?_, ?_, ?_, rfl, rfl, ?_⟩
  · have hm : matchesIntRegex (c :: cs) = true := by
      rw [matchesIntRegex, if_neg hcm, if_neg hcp]
      exact hbody
    rw [filterInt, if_pos hm, jsNumberOf, if_neg hcm, if_neg hcp,
      if_neg hneInf]
  · have hm2 : matchesIntRegex ('-' :: c :: cs) = true := by
      rw [matchesIntRegex, if_pos rfl]
      exact hbody
    rw [filterInt, if_pos hm2, jsNumberOf, if_pos rfl, if_neg hneInf]
  · have hm3 : matchesIntRegex ('+' :: c :: cs) = true := by
      rw [matchesIntRegex, if_neg (by decide), if_pos rfl]
      exact hbody
    rw [filterInt, if_pos hm3, jsNumberOf, if_neg (by decide),
      if_pos rfl, if_neg hneInf]
  · intro s hs
    rw [filterInt, if_neg (by rw [hs]; decide)]

/-- Witness for the amended C6 at the digit string `42`. -/
theorem c6_filter_int_witness :
    filterInt "42".toList = Except.ok (JsNumber.int 42) :=
  (c6_filter_int "42".toList (by decide) (by decide)).1

/-! ## XSL placeholder substitution (lines 174–184 and 28–31)

`String.prototype.replace` with a *string* pattern replaces only the
first occurrence.  The script applies it twice: once to normalize `%20`
in the QT-compatible file URL of the working directory, and once to
substitute `%url_current_dir%` in the template text.  The URL produced
by the external `file-url` wrapper is abstracted as an input. -/

/-- JavaScript `s.replace(pat, repl)` with a string pattern: replace the
first occurrence of `pat`, or return `s` unchanged if there is none. -/
def replaceOnce (pat repl : Str) : Str → Str
  | [] => if pat = [] then repl else []
  | c :: cs =>
    if pat.isPrefixOf (c :: cs) then repl ++ (c :: cs).drop pat.length
    else c :: replaceOnce pat repl cs

/-- Modelled from the spec: replace every occurrence of `pat`
(left-to-right, non-overlapping), with fuel for structural recursion. -/
def replaceAllGo (pat repl : Str) : Nat → Str → Str
  | _, [] => []
  | 0, s => s
  | fuel + 1, c :: cs =>
    if pat ≠ [] ∧ pat.isPrefixOf (c :: cs) then
      repl ++ replaceAllGo pat repl fuel ((c :: cs).drop pat.length)
    else c :: replaceAllGo pat repl fuel cs

/-- Modelled from the spec: replace every occurrence of `pat`. -/
def replaceAll (pat repl s : Str) : Str := replaceAllGo pat repl s.length s

/-- `'%url_current_dir%'`. -/
def urlPlaceholder : Str := "%url_current_dir%".toList

/-- Line 179–181 as implemented: normalize the first `%20` of the QT
file URL to a space, then substitute the first placeholder occurrence in
the template text. -/
def xslSubstitution (qtUrl data : Str) : Str :=
  replaceOnce urlPlaceholder (replaceOnce "%20".toList [' '] qtUrl) data

/-- Modelled from the spec: the claimed transform, in which *every*
`%20` of the URL is normalized to a space. -/
def xslSubstitutionClaimed (qtUrl data : Str) : Str :=
  replaceOnce urlPlaceholder (replaceAll "%20".toList [' '] qtUrl) data

/-- `replaceOnce` rewrites exactly the first occurrence: if `pat` occurs
at position `i` and nowhere earlier, the result is the surrounding text
with `repl` spliced in. -/
theorem replaceOnce_first (pat repl : Str) (hpat : pat ≠ []) :
    ∀ (s : Str) (i : Nat), pat.isPrefixOf (s.drop i) = true →
      (∀ j, j < i → pat.isPrefixOf (s.drop j) = false) →
      replaceOnce pat repl s = s.take i ++ repl ++ s.drop (i + pat.length) := by
  intro s
  induction s with
  | nil =>
    intro i hat _
    obtain ⟨c, cs, hc⟩ : ∃ c cs, pat = c :: cs := by
      cases pat with
      | nil => exact absurd rfl hpat
      | cons c cs => exact ⟨c, cs, rfl⟩
    rw [List.drop_nil] at hat
    rw [hc] at hat
    exact absurd hat (by simp [List.isPrefixOf])
  | cons c cs ih =>
    intro i hat hbefore
    match i with
    | 0 =>
      rw [List.drop_zero] at hat
      rw [replaceOnce, if_pos hat]
      simp
    | i + 1 =>
      have h0 : pat.isPrefixOf (c :: cs) = false := by
        have := hbefore 0 (by omega)
        rwa [List.drop_zero] at this
      rw [replaceOnce, if_neg (by rw [h0]; decide)]
      have hat' : pat.isPrefixOf (cs.drop i) = true := hat
      have hbefore' : ∀ j, j < i → pat.isPrefixOf (cs.drop j) = false :=
        fun j hj => hbefore (j + 1) (by omega)
      rw [ih i hat' hbefore']
      have harith : i + 1 + pat.length = (i + pat.length) + 1 := by omega
      rw [harith, List.take_succ_cons, List.drop_succ_cons]
      simp

/-- `replaceOnce` with no occurrence anywhere returns the text
unchanged. -/
theorem replaceOnce_of_no_occurrence (pat repl : Str) (hpat : pat ≠ []) :
    ∀ s, (∀ j, pat.isPrefixOf (s.drop j) = false) →
      replaceOnce pat repl s = s := by
  intro s
  induction s with
  | nil =>
    intro _
    rw [replaceOnce, if_neg hpat]
  | cons c cs ih =>
    intro h
    have h0 : pat.isPrefixOf (c :: cs) = false := by
      have := h 0
      rwa [List.drop_zero] at this
    rw [replaceOnce, if_neg (by rw [h0]; decide), ih (fun j => h (j + 1))]

/-- Counterexample to C8 as stated: with two `%20` sequences in the
working-directory URL only the first is normalized — the claimed
transform (every `%20` becomes a space) produces a different text. -/
theorem c8_counterexample :
    xslSubstitution "file:///a%20b%20c".toList
        "<v>%url_current_dir%</v>".toList =
      "<v>file:///a b%20c</v>".toList ∧
    xslSubstitutionClaimed "file:///a%20b%20c".toList
        "<v>%url_current_dir%</v>".toList =
      "<v>file:///a b c</v>".toList ∧
    xslSubstitution "file:///a%20b%20c".toList
        "<v>%url_current_dir%</v>".toList ≠
      xslSubstitutionClaimed "file:///a%20b%20c".toList
        "<v>%url_current_dir%</v>".toList := by
  decide

/-- C8 (amended): the `.xsl` transform substitutes the first occurrence
of the placeholder with the working-directory URL in which the *first*
`%20` is normalized to a literal space (later `%20` sequences are kept),
and a text without placeholder (or URL without `%20`) passes through
unchanged. -/
theorem c8_xsl_substitution (qtUrl data : Str) (i j : Nat)
    (hu1 : ("%20".toList).isPrefixOf (qtUrl.drop i) = true)
    (hu2 : ∀ k, k < i → ("%20".toList).isPrefixOf (qtUrl.drop k) = false)
    (hd1 : urlPlaceholder.isPrefixOf (data.drop j) = true)
    (hd2 : ∀ k, k < j → urlPlaceholder.isPrefixOf (data.drop k) = false) :
    xslSubstitution qtUrl data =
      data.take j ++ (qtUrl.take i ++ [' '] ++ qtUrl.drop (i + 3)) ++
        data.drop (j + 17) ∧
    (∀ url2 data2,
      (∀ k, urlPlaceholder.isPrefixOf (data2.drop k) = false) →
      xslSubstitution url2 data2 = data2) := by
  constructor
  · have h1 := replaceOnce_first "%20".toList [' '] (by decide) qtUrl i
      hu1 hu2
    have h2 := replaceOnce_first urlPlaceholder
      (replaceOnce "%20".toList [' '] qtUrl) (by decide) data j hd1 hd2
    rw [xslSubstitution, h2, h1]
    simp [urlPlaceholder]
  · intro url2 data2 h2
    rw [xslSubstitution,
      replaceOnce_of_no_occurrence urlPlaceholder _ (by decide) data2 h2]

/-- Witness for the amended C8 at a concrete URL and template. -/
theorem c8_xsl_substitution_witness :
    xslSubstitution "file:///t%20x".toList
        "a %url_current_dir% b".toList =
      "a file:///t x b".toList := by
  have h := (c8_xsl_substitution "file:///t%20x".toList
    "a %url_current_dir% b".toList 9 2 (by decide) (by decide)
    (by decide) (by decide)).1
  exact h.trans (by decide)
